import Mathlib

/-!
# Verification of the xlsx cell-overwrite script

A shallow embedding of `script/xlsx-overwrite-cells.py` and proofs of the
specified properties.

Modelling conventions:

* Python `ElementTree` elements are modelled by the mutually inductive types
  `XNode`/`XForest` (a node with tag, attribute dictionary, text and ordered
  children).  Worksheet structure follows the data model of the spec: a
  sheet-data node is a list of `Row`s, a row holds a list of `Cell`s, and the
  generic tree type is used for the contents of a cell.  Namespace-qualified
  tag and attribute names are abbreviated to their local names (`"row"`,
  `"c"`, `"v"`, `"is"`, `"t"`, `"xml:space"`); the namespace URI prefix is a
  serialization detail that the patching logic never branches on.
* Python machine-independent `int` is modelled by `Int`; `str` by `String`
  (ASCII semantics for the whitespace/digit/letter classes used here).
* Python dictionaries holding XML attributes are modelled by association
  lists with first-match lookup and insert-or-update assignment.
* Fallible operations (`re.match` failure, `int(...)` raising `ValueError`)
  return `Option`.
* The zip archive is modelled as a list of entries carrying exactly the
  metadata fields the script copies; file-system effects of the copy routine
  are modelled by explicit state passing with an explicit failure point.
-/

/-! ## Python string primitives -/

/-- The ASCII whitespace characters recognised by Python's `str.strip` and
`int` parsing (the inputs handled here are ASCII). -/
def pyIsSpace (c : Char) : Bool :=
  c = ' ' || c = '\t' || c = '\n' || c = '\r' || c = Char.ofNat 11 || c = Char.ofNat 12

/-- `str.strip()` on a character list: drop leading and trailing whitespace. -/
def pyStrip (l : List Char) : List Char :=
  ((l.dropWhile pyIsSpace).reverse.dropWhile pyIsSpace).reverse

/-- `str.strip()` on a string. -/
def pyStripStr (s : String) : String :=
  String.mk (pyStrip s.toList)

/-- Digit run of Python `int(str)`: decimal digits with single underscores
allowed only between digits (`prevDigit` records whether the previous
character was a digit, so a leading, trailing or doubled underscore fails). -/
def pyDigitsGo (acc : Nat) (prevDigit : Bool) : List Char → Option Nat
  | [] => if prevDigit then some acc else none
  | c :: rest =>
    if c.isDigit then pyDigitsGo (acc * 10 + (c.toNat - 48)) true rest
    else if c = '_' && prevDigit then pyDigitsGo acc false rest
    else none

/-- Parse a non-empty digit run (Python `int` body after the optional sign). -/
def pyDigitsStart (l : List Char) : Option Nat :=
  pyDigitsGo 0 false l

/-- Optional sign followed by a digit run (Python `int` after stripping). -/
def pySigned : List Char → Option Int
  | [] => none
  | c :: rest =>
    if c = '+' then (pyDigitsStart rest).map (fun m : Nat => (m : Int))
    else if c = '-' then (pyDigitsStart rest).map (fun m : Nat => -(m : Int))
    else (pyDigitsStart (c :: rest)).map (fun m : Nat => (m : Int))

/-- Python `int(s)`: strip whitespace, optional sign, decimal digits; `none`
models a raised `ValueError`. -/
def pyIntParse (s : String) : Option Int :=
  pySigned (pyStrip s.toList)

/-- The decimal digit character for `n < 10` (Python `str(int)` digits). -/
def digitChar (n : Nat) : Char :=
  match n with
  | 0 => '0' | 1 => '1' | 2 => '2' | 3 => '3' | 4 => '4'
  | 5 => '5' | 6 => '6' | 7 => '7' | 8 => '8' | _ => '9'

/-- Fuel-driven most-significant-first decimal digit accumulation; the fuel
is always sufficient when called through `natDigits`. -/
def natDigitsGo : Nat → Nat → List Char → List Char
  | 0, _, acc => acc
  | fuel + 1, n, acc =>
    if n < 10 then digitChar n :: acc
    else natDigitsGo fuel (n / 10) (digitChar (n % 10) :: acc)

/-- Decimal digits of a natural number, most significant first. -/
def natDigits (n : Nat) : List Char := natDigitsGo (n + 1) n []

/-- Python `str(int)`. -/
def pyStr (n : Int) : String :=
  if n < 0 then String.mk ('-' :: natDigits (-n).toNat)
  else String.mk (natDigits n.toNat)

/-! ## Address parsing (`col_letters_to_index`, `parse_cell_ref`) -/

/-- `col_letters_to_index`: base-26 value of a letter run, `A = 1 … Z = 26`,
most significant letter first (`value = value * 26 + (ord(ch) - 64)` over the
upper-cased letters). -/
def col_letters_to_index (col_letters : String) : Int :=
  col_letters.toList.foldl (fun v ch => v * 26 + ((ch.toUpper.toNat : Int) - 64)) 0

/-- Value of a digit run (the row-number group of a cell reference). -/
def digitsVal (l : List Char) : Nat :=
  l.foldl (fun a c => a * 10 + (c.toNat - 48)) 0

/-- `parse_cell_ref`: match `^([A-Za-z]+)(\d+)$`, returning the upper-cased
letter group and the row number; `none` models the raised `ValueError`. -/
def parse_cell_ref (address : String) : Option (String × Int) :=
  let cs := address.toList
  let letters := cs.takeWhile Char.isAlpha
  let rest := cs.drop letters.length
  if letters ≠ [] && rest ≠ [] && rest.all Char.isDigit then
    some (String.mk (letters.map Char.toUpper), (digitsVal rest : Nat))
  else
    none

/-! ## The XML tree model -/

mutual
/-- An element-tree node: tag, attribute dictionary, text, ordered children. -/
inductive XNode where
  | node (tag : String) (attrib : List (String × String)) (text : Option String) (children : XForest)
/-- An ordered sequence of sibling nodes. -/
inductive XForest where
  | nil
  | cons (n : XNode) (rest : XForest)
end

def XNode.tag : XNode → String
  | .node t _ _ _ => t

def XNode.attrib : XNode → List (String × String)
  | .node _ a _ _ => a

def XNode.text : XNode → Option String
  | .node _ _ x _ => x

def XNode.children : XNode → XForest
  | .node _ _ _ c => c

/-- First node of a forest satisfying a predicate (Python `Element.find`). -/
def forestFind (p : XNode → Bool) : XForest → Option XNode
  | .nil => none
  | .cons n rest => if p n then some n else forestFind p rest

/-- Dictionary lookup (`attrib.get(k)`): first match in the association list. -/
def dictGet (d : List (String × String)) (k : String) : Option String :=
  match d with
  | [] => none
  | (k', v) :: rest => if k' = k then some v else dictGet rest k

/-- Dictionary assignment (`attrib[k] = v`): update in place or append. -/
def dictSet (d : List (String × String)) (k v : String) : List (String × String) :=
  match d with
  | [] => [(k, v)]
  | (k', v') :: rest => if k' = k then (k, v) :: rest else (k', v') :: dictSet rest k v

/-- A worksheet cell (`<c>` element): attribute dictionary, text, children. -/
structure Cell where
  attrib : List (String × String)
  text : Option String
  children : XForest

/-- A worksheet row (`<row>` element): attribute dictionary and its cells. -/
structure Row where
  attrib : List (String × String)
  cells : List Cell

/-! ## Cell value extraction (`extract_cell_text`) -/

mutual
/-- All descendant `t`-node texts of one node, in document order
(`findall(".//t")` then `node.text or ""`). -/
def tTextsNode : XNode → List String
  | .node tag _ text children =>
      (if tag = "t" then [text.getD ""] else []) ++ tTextsForest children
/-- All descendant `t`-node texts of a forest, in document order. -/
def tTextsForest : XForest → List String
  | .nil => []
  | .cons n rest => tTextsNode n ++ tTextsForest rest
end

/-- `extract_cell_text`: inline strings concatenate every descendant text
node; shared-string references resolve through the table with fallback to the
raw value; all other types return the raw value; no value node means `""`. -/
def extract_cell_text (cell : Cell) (shared : List String) : String :=
  if dictGet cell.attrib "t" = some "inlineStr" then
    String.join (tTextsForest cell.children)
  else
    match forestFind (fun n => n.tag = "v") cell.children with
    | none => ""
    | some v =>
      match v.text with
      | none => ""
      | some raw =>
        if dictGet cell.attrib "t" = some "s" then
          match pyIntParse raw with
          | some idx =>
            if 0 ≤ idx && idx < (shared.length : Int) then shared.getD idx.toNat "" else raw
          | none => raw
        else raw

/-! ## Row and cell search and sorted insertion -/

/-- Insert into a list at a position (`list.insert(i, a)` in Python). -/
def listInsertAt (xs : List α) (i : Nat) (a : α) : List α :=
  xs.take i ++ a :: xs.drop i

/-- Replace the element at a position, identity when out of range. -/
def listModifyAt (xs : List α) (i : Nat) (f : α → α) : List α :=
  match xs.get? i with
  | some x => xs.set i (f x)
  | none => xs

/-- The row number used for ordering comparisons:
`int(row.attrib.get("r", "0"))` with `ValueError` handled as `0`. -/
def rowNumOf (row : Row) : Int :=
  match pyIntParse ((dictGet row.attrib "r").getD "0") with
  | some n => n
  | none => 0

/-- Index of the first row whose `r` attribute is the exact string form of
the row number (`find_row`, by index). -/
def findRowIdx (rows : List Row) (rowNum : Int) : Option Nat :=
  rows.findIdx? (fun r => dictGet r.attrib "r" = some (pyStr rowNum))

/-- `find_row`: the first row tagged with the requested row number. -/
def find_row (rows : List Row) (rowNum : Int) : Option Row :=
  (findRowIdx rows rowNum).bind rows.get?

/-- A freshly created row element for a row number. -/
def newRow (rowNum : Int) : Row :=
  { attrib := [("r", pyStr rowNum)], cells := [] }

/-- Insertion position for a new row: immediately before the first existing
row whose number exceeds the target, else the end. -/
def insertRowPos (rows : List Row) (rowNum : Int) : Nat :=
  rows.findIdx (fun r => decide (rowNumOf r > rowNum))

/-- `insert_row_sorted`: insert a fresh row at the sorted position, returning
the updated row list and the position of the new row. -/
def insert_row_sorted (rows : List Row) (rowNum : Int) : List Row × Nat :=
  let p := insertRowPos rows rowNum
  (listInsertAt rows p (newRow rowNum), p)

/-- Index of the first cell whose `r` attribute equals the address string
exactly (`find_cell`, by index). -/
def findCellIdx (cells : List Cell) (address : String) : Option Nat :=
  cells.findIdx? (fun c => dictGet c.attrib "r" = some address)

/-- `find_cell`: the first cell carrying exactly the requested address. -/
def find_cell (cells : List Cell) (address : String) : Option Cell :=
  (findCellIdx cells address).bind cells.get?

/-- Column index of an existing cell's `r` attribute, `none` when the
attribute is absent or does not match the cell-reference pattern. -/
def cellColIdx (cell : Cell) : Option Int :=
  (parse_cell_ref ((dictGet cell.attrib "r").getD "")).map
    (fun p => col_letters_to_index p.1)

/-- A freshly created cell element for an address. -/
def newCell (address : String) : Cell :=
  { attrib := [("r", address)], text := none, children := .nil }

/-- Insertion position for a new cell of the given column index: immediately
before the first well-formed existing cell whose column index exceeds it,
else the end; malformed references are skipped by the comparison. -/
def insertCellPos (cells : List Cell) (colIdx : Int) : Nat :=
  cells.findIdx (fun c =>
    match cellColIdx c with
    | some e => decide (e > colIdx)
    | none => false)

/-- `insert_cell_sorted`: parse the address (a failure models the raised
`ValueError`), then insert a fresh cell at the sorted position, returning the
updated cell list and the position of the new cell. -/
def insert_cell_sorted (cells : List Cell) (address : String) : Option (List Cell × Nat) :=
  (parse_cell_ref address).map (fun p =>
    let colIdx := col_letters_to_index p.1
    let pos := insertCellPos cells colIdx
    (listInsertAt cells pos (newCell address), pos))

/-! ## Cell rewriting (`write_inline_string`) -/

/-- `write_inline_string`: drop all children, force the type attribute to
`inlineStr`, and store the value in a fresh `is`/`t` pair, marking the text
node space-preserving when the value has a leading or trailing space. -/
def write_inline_string (cell : Cell) (value : String) : Cell :=
  let tAttrib : List (String × String) :=
    if value.startsWith " " || value.endsWith " " then [("xml:space", "preserve")] else []
  { cell with
    attrib := dictSet cell.attrib "t" "inlineStr",
    children := .cons (XNode.node "is" [] none
      (.cons (XNode.node "t" tAttrib (some value) .nil) .nil)) .nil }

/-! ## Change application (`patch_sheet_xml`) -/

/-- One change request, with the field coercions of the reading code already
applied (`str(...)` for the name and address fields, `int(...)` for
`tableIndex` and a present `columnIndex`); `target` keeps the raw payload
value, which the code folds to `"table"`/`"column"`. -/
structure Change where
  sheetName : String
  sourceAddress : String
  beforeName : String
  afterName : String
  tableIndex : Int
  columnIndex : Option Int
  target : Option String

/-- One recorded issue. -/
structure Issue where
  sheetName : String
  sourceAddress : String
  reason : String
  tableIndex : Int
  columnIndex : Option Int
  target : String

/-- `"table" if change.get("target") == "table" else "column"`. -/
def targetOf (c : Change) : String :=
  if c.target = some "table" then "table" else "column"

/-- An issue recorded inside `patch_sheet_xml` (address already stripped). -/
def mkIssue (c : Change) (address reason : String) : Issue :=
  { sheetName := c.sheetName, sourceAddress := address, reason := reason,
    tableIndex := c.tableIndex, columnIndex := c.columnIndex, target := targetOf c }

/-- The value-mismatch reason string. -/
def mismatchReason (bef cur : String) : String :=
  "Cell value mismatch. expected=\"" ++ bef ++ "\" actual=\"" ++ cur ++ "\""

/-- The current textual value a change is validated against: the value of
the located cell, or `""` when the row or the cell is absent. -/
def currentValueAt (sd : List Row) (shared : List String) (rowNum : Int) (address : String) : String :=
  match find_row sd rowNum with
  | none => ""
  | some row =>
    match find_cell row.cells address with
    | none => ""
    | some cell => extract_cell_text cell shared

/-- Locate or insert the target cell in a row and rewrite it. -/
def rowWrite (row : Row) (address letters aft : String) : Row :=
  match findCellIdx row.cells address with
  | some ci => { row with cells := listModifyAt row.cells ci (fun cell => write_inline_string cell aft) }
  | none =>
    let pos := insertCellPos row.cells (col_letters_to_index letters)
    { row with cells := listInsertAt row.cells pos (write_inline_string (newCell address) aft) }

/-- Locate or insert the target row, then locate or insert and rewrite the
target cell (the mutation step of a validated change). -/
def applyWrite (sd : List Row) (rowNum : Int) (address letters aft : String) : List Row :=
  match findRowIdx sd rowNum with
  | some ri => listModifyAt sd ri (fun row => rowWrite row address letters aft)
  | none =>
    let p := insertRowPos sd rowNum
    listInsertAt sd p (rowWrite (newRow rowNum) address letters aft)

/-- Outcome of processing a single change. -/
structure StepResult where
  doc : List Row
  applied : Bool
  issue : Option Issue

/-- Process one change of `patch_sheet_xml`'s loop: strip and parse the
address, read the current value, validate it against the trimmed
`beforeName`/`afterName`, and either mutate the document or record one
issue. -/
def applyChange (shared : List String) (sd : List Row) (c : Change) : StepResult :=
  let address := pyStripStr c.sourceAddress
  match parse_cell_ref address with
  | none =>
    { doc := sd, applied := false,
      issue := some (mkIssue c address ("Invalid cell address: " ++ address)) }
  | some (letters, rowNum) =>
    let current := currentValueAt sd shared rowNum address
    if pyStripStr current = pyStripStr c.beforeName ∨ pyStripStr current = pyStripStr c.afterName then
      { doc := applyWrite sd rowNum address letters c.afterName, applied := true, issue := none }
    else
      { doc := sd, applied := false,
        issue := some (mkIssue c address (mismatchReason c.beforeName current)) }

/-- Result of patching one worksheet document. -/
structure PatchResult where
  doc : List Row
  applied : Nat
  issues : List Issue

/-- One fold step of `patch_sheet_xml`'s loop. -/
def patchStep (shared : List String) (acc : PatchResult) (c : Change) : PatchResult :=
  let r := applyChange shared acc.doc c
  { doc := r.doc,
    applied := acc.applied + (if r.applied then 1 else 0),
    issues := acc.issues ++ r.issue.toList }

/-- `patch_sheet_xml` on the sheet-data node: process every change in input
order, counting applications and collecting issues. -/
def patch_sheet_xml (sd : List Row) (shared : List String) (changes : List Change) : PatchResult :=
  changes.foldl (patchStep shared) { doc := sd, applied := 0, issues := [] }

/-! ## Document-level orchestration (`main`'s grouping and patch loop) -/

/-- An issue recorded by the orchestrator (raw, unstripped source address). -/
def mkMainIssue (c : Change) (reason : String) : Issue :=
  { sheetName := c.sheetName, sourceAddress := c.sourceAddress, reason := reason,
    tableIndex := c.tableIndex, columnIndex := c.columnIndex, target := targetOf c }

/-- Association-list lookup with string keys (Python `dict.get`). -/
def assocGet (m : List (String × α)) (k : String) : Option α :=
  match m with
  | [] => none
  | (k', v) :: rest => if k' = k then some v else assocGet rest k

/-- `grouped.setdefault(path, []).append(change)`: append the change to the
group of its path, creating the group at the end on first use. -/
def assocAppend (g : List (String × List Change)) (k : String) (c : Change) : List (String × List Change) :=
  match g with
  | [] => [(k, [c])]
  | (k', l) :: rest => if k' = k then (k', l ++ [c]) :: rest else (k', l) :: assocAppend rest k c

/-- One step of the grouping loop: resolve the sheet name; a missing (or
falsy) path yields a `Worksheet not found in workbook` issue, otherwise the
change joins its path's group. -/
def groupStep (sheetMap : List (String × String))
    (acc : List (String × List Change) × List Issue) (c : Change) :
    List (String × List Change) × List Issue :=
  match assocGet sheetMap c.sheetName with
  | none => (acc.1, acc.2 ++ [mkMainIssue c "Worksheet not found in workbook"])
  | some p =>
    if p = "" then (acc.1, acc.2 ++ [mkMainIssue c "Worksheet not found in workbook"])
    else (assocAppend acc.1 p c, acc.2)

/-- Group the changes by resolved worksheet path, collecting the issues of
unresolvable sheet names. -/
def groupChanges (sheetMap : List (String × String)) (changes : List Change) :
    List (String × List Change) × List Issue :=
  changes.foldl (groupStep sheetMap) ([], [])

/-- Result of a whole run over a workbook. -/
structure RunResult where
  replacements : List (String × List Row)
  applied : Nat
  issues : List Issue

/-- The patch loop of `main`: for each group, either every change becomes a
`Worksheet xml entry not found in workbook zip` issue (entry absent from the
archive) or the worksheet is patched once and its result collected.  The
archive is modelled as an association from entry names to parsed worksheet
documents.  One fold step handles one worksheet group. -/
def processStep (archive : List (String × List Row)) (shared : List String)
    (acc : RunResult) (pc : String × List Change) : RunResult :=
  match assocGet archive pc.1 with
  | none =>
    { acc with issues :=
        acc.issues ++ pc.2.map (fun c => mkMainIssue c "Worksheet xml entry not found in workbook zip") }
  | some doc =>
    let r := patch_sheet_xml doc shared pc.2
    { replacements := acc.replacements ++ [(pc.1, r.doc)],
      applied := acc.applied + r.applied,
      issues := acc.issues ++ r.issues }

/-- The patch loop of `main` over all groups. -/
def processChanges (archive : List (String × List Row)) (sheetMap : List (String × String))
    (shared : List String) (changes : List Change) : RunResult :=
  let g := groupChanges sheetMap changes
  g.1.foldl (processStep archive shared) { replacements := [], applied := 0, issues := g.2 }

/-! ## Archive rewriting (`copy_zip_with_replacements`) -/

/-- One archive entry with exactly the metadata the copy routine transfers;
`data` is the uncompressed byte content. -/
structure ZipEntry where
  filename : String
  date_time : Nat
  compress_type : Nat
  comment : List Nat
  create_system : Nat
  create_version : Nat
  extract_version : Nat
  flag_bits : Nat
  external_attr : Nat
  internal_attr : Nat
  extra : List Nat
  data : List Nat

/-- Write one entry of the output archive: fresh info record copying every
metadata field, with the data taken from the replacement map when present
(`replacements.get(info.filename, zin.read(info.filename))`). -/
def replaceEntry (repl : List (String × List Nat)) (e : ZipEntry) : ZipEntry :=
  { filename := e.filename, date_time := e.date_time, compress_type := e.compress_type,
    comment := e.comment, create_system := e.create_system, create_version := e.create_version,
    extract_version := e.extract_version, flag_bits := e.flag_bits,
    external_attr := e.external_attr, internal_attr := e.internal_attr, extra := e.extra,
    data := (assocGet repl e.filename).getD e.data }

/-- The content of the fully written output archive. -/
def copy_zip_with_replacements (entries : List ZipEntry) (repl : List (String × List Nat)) : List ZipEntry :=
  entries.map (replaceEntry repl)

/-- The files touched by the copy routine: the workbook archive on disk and
the temporary file (absent or present with its current content). -/
structure ZipFs where
  workbook : List ZipEntry
  temp : Option (List ZipEntry)

/-- The entry-copy loop writing into the temporary archive; `failAt` is the
index of the entry whose processing raises, if any.  A failure returns the
partial temporary content written so far. -/
def copyEntriesLoop : List ZipEntry → List (String × List Nat) → Option Nat → List ZipEntry →
    Except (List ZipEntry) (List ZipEntry)
  | [], _, _, acc => .ok acc
  | e :: rest, repl, failAt, acc =>
    match failAt with
    | some 0 => .error acc
    | some (k + 1) => copyEntriesLoop rest repl (some k) (acc ++ [replaceEntry repl e])
    | none => copyEntriesLoop rest repl none (acc ++ [replaceEntry repl e])

/-- `copy_zip_with_replacements` as a file-system transition: create the
temporary file, run the copy loop into it, and on success atomically move it
over the workbook (`os.replace`); the `finally` clause removes a temporary
file that still exists.  Returns the final file state and whether the copy
succeeded. -/
def copy_zip_run (fs : ZipFs) (repl : List (String × List Nat)) (failAt : Option Nat) : ZipFs × Bool :=
  match copyEntriesLoop fs.workbook repl failAt [] with
  | .error partialTemp =>
    let duringFailure : ZipFs := { workbook := fs.workbook, temp := some partialTemp }
    ({ duringFailure with temp := none }, false)
  | .ok fullTemp =>
    let afterReplace : ZipFs := { workbook := fullTemp, temp := none }
    (afterReplace, true)

/-! ## Specification-side definitions

These definitions formalise wording of the specification itself, to be
compared with the code-derived definitions above. -/

/-- The per-letter digit value of the base-26 column numeral
(`A = 1 … Z = 26`, case-insensitive). -/
def dVal (c : Char) : Int :=
  (c.toUpper.toNat : Int) - 64

/-- `col_letters_to_index` as a fold from an arbitrary accumulator. -/
def colValFrom (acc : Int) (l : List Char) : Int :=
  l.foldl (fun v ch => v * 26 + ((ch.toUpper.toNat : Int) - 64)) acc

/-- Case-insensitive lexicographic comparison of letter sequences. -/
def lexLtCI : List Char → List Char → Bool
  | _, [] => false
  | [], _ :: _ => true
  | a :: as, b :: bs =>
    if a.toUpper.toNat < b.toUpper.toNat then true
    else if a.toUpper.toNat = b.toUpper.toNat then lexLtCI as bs
    else false

/-- Standard spreadsheet column order (`A, B, …, Z, AA, AB, …`): shorter
letter sequences come first, equal lengths compare lexicographically,
case-insensitively. -/
def colOrderLt (s t : String) : Bool :=
  s.toList.length < t.toList.length ||
    (s.toList.length = t.toList.length && lexLtCI s.toList t.toList)

/-- Smallest column value of a letter sequence of a given length
(the all-`A` word). -/
def minV : Nat → Int
  | 0 => 0
  | n + 1 => minV n * 26 + 1

/-- Largest column value of a letter sequence of a given length
(the all-`Z` word). -/
def maxV : Nat → Int
  | 0 => 0
  | n + 1 => maxV n * 26 + 26

/-- The value-extraction contract, written from the specification: inline
strings concatenate all text sub-nodes in document order; otherwise the
value node is read (absent value node and not inline gives the empty
string); a shared-string reference resolves the parsed index through the
table, falling back to the raw text when the index is out of range or
unparsable; every other type returns the raw value text unchanged. -/
def spec_extract_value (cell : Cell) (shared : List String) : String :=
  if dictGet cell.attrib "t" = some "inlineStr" then
    String.join (tTextsForest cell.children)
  else
    match forestFind (fun n => n.tag = "v") cell.children with
    | none => ""
    | some v =>
      let raw := v.text.getD ""
      if dictGet cell.attrib "t" = some "s" then
        match pyIntParse raw with
        | some idx =>
          if 0 ≤ idx && idx < (shared.length : Int) then shared.getD idx.toNat "" else raw
        | none => raw
      else raw

/-! ## Character and base-26 arithmetic lemmas -/

theorem xo_toNat_ofNat (n : Nat) (h : n.isValidChar) : (Char.ofNat n).toNat = n := by
  unfold Char.ofNat
  rw [dif_pos h]
  rfl

theorem xo_isUpper_bounds (c : Char) (h : c.isUpper = true) :
    65 ≤ c.toNat ∧ c.toNat ≤ 90 := by
  simp only [Char.isUpper, Bool.and_eq_true, decide_eq_true_eq] at h
  exact ⟨h.1, h.2⟩

theorem xo_isLower_bounds (c : Char) (h : c.isLower = true) :
    97 ≤ c.toNat ∧ c.toNat ≤ 122 := by
  simp only [Char.isLower, Bool.and_eq_true, decide_eq_true_eq] at h
  exact ⟨h.1, h.2⟩

theorem xo_toUpper_bounds (c : Char) (h : c.isAlpha = true) :
    65 ≤ c.toUpper.toNat ∧ c.toUpper.toNat ≤ 90 := by
  simp only [Char.isAlpha, Bool.or_eq_true] at h
  unfold Char.toUpper
  rcases h with h | h
  · obtain ⟨h1, h2⟩ := xo_isUpper_bounds c h
    rw [if_neg (by omega)]
    exact ⟨h1, h2⟩
  · obtain ⟨h1, h2⟩ := xo_isLower_bounds c h
    rw [if_pos ⟨h1, h2⟩, xo_toNat_ofNat _ (Or.inl (by omega))]
    omega

theorem xo_dVal_bounds (c : Char) (h : c.isAlpha = true) :
    1 ≤ dVal c ∧ dVal c ≤ 26 := by
  obtain ⟨h1, h2⟩ := xo_toUpper_bounds c h
  unfold dVal
  omega

theorem xo_colValFrom_cons (acc : Int) (c : Char) (l : List Char) :
    colValFrom acc (c :: l) = colValFrom (acc * 26 + dVal c) l := rfl

theorem xo_colValFrom_shift (l : List Char) (acc : Int) :
    colValFrom acc l = acc * 26 ^ l.length + colValFrom 0 l := by
  induction l generalizing acc with
  | nil => simp [colValFrom]
  | cons c l ih =>
    rw [xo_colValFrom_cons, xo_colValFrom_cons 0, ih (acc * 26 + dVal c), ih (0 * 26 + dVal c)]
    simp only [List.length_cons]
    ring

theorem xo_minV_nonneg (n : Nat) : 0 ≤ minV n := by
  induction n with
  | zero => simp [minV]
  | succ n ih => simp only [minV]; linarith

theorem xo_minV_closed (n : Nat) : 25 * minV n = 26 ^ n - 1 := by
  induction n with
  | zero => simp [minV]
  | succ n ih =>
    simp only [minV, pow_succ]
    linarith

theorem xo_maxV_eq (n : Nat) : maxV n = 26 * minV n := by
  induction n with
  | zero => simp [minV, maxV]
  | succ n ih => simp only [minV, maxV]; linarith

theorem xo_maxV_add_one (n : Nat) : maxV n + 1 = minV (n + 1) := by
  rw [xo_maxV_eq]
  simp only [minV]
  linarith [xo_minV_closed n]

theorem xo_minV_mono {m n : Nat} (h : m ≤ n) : minV m ≤ minV n := by
  induction n with
  | zero =>
    have hm : m = 0 := by omega
    rw [hm]
  | succ n ih =>
    rcases Nat.lt_or_ge m (n + 1) with h' | h'
    · have := ih (by omega)
      have := xo_minV_nonneg n
      simp only [minV]
      linarith
    · have : m = n + 1 := by omega
      subst this
      exact le_refl _

theorem xo_colVal_bounds (l : List Char) (h : ∀ c ∈ l, c.isAlpha = true) :
    minV l.length ≤ colValFrom 0 l ∧ colValFrom 0 l ≤ maxV l.length := by
  induction l with
  | nil => simp [colValFrom, minV, maxV]
  | cons c l ih =>
    obtain ⟨ih1, ih2⟩ := ih (fun x hx => h x (List.mem_cons_of_mem _ hx))
    obtain ⟨hd1, hd2⟩ := xo_dVal_bounds c (h c (List.mem_cons_self _ _))
    rw [xo_colValFrom_cons, xo_colValFrom_shift]
    simp only [List.length_cons, minV, maxV]
    have hpow : (0:Int) < 26 ^ l.length := by positivity
    have hmin := xo_minV_closed l.length
    have hmax := xo_maxV_eq l.length
    constructor
    · nlinarith
    · nlinarith

theorem xo_colVal_pos (l : List Char) (hne : l ≠ []) (h : ∀ c ∈ l, c.isAlpha = true) :
    1 ≤ colValFrom 0 l := by
  have h1 := (xo_colVal_bounds l h).1
  have h2 : minV 1 ≤ minV l.length := xo_minV_mono (by cases l <;> simp_all)
  simp [minV] at h2
  linarith

theorem xo_colVal_lt_of_shorter (a b : List Char)
    (ha : ∀ c ∈ a, c.isAlpha = true) (hb : ∀ c ∈ b, c.isAlpha = true)
    (hlen : a.length < b.length) : colValFrom 0 a < colValFrom 0 b := by
  have h1 := (xo_colVal_bounds a ha).2
  have h2 := (xo_colVal_bounds b hb).1
  have h3 : maxV a.length + 1 ≤ minV b.length := by
    rw [xo_maxV_add_one]
    exact xo_minV_mono hlen
  linarith

theorem xo_colVal_lt_of_lex (a : List Char) :
    ∀ b : List Char, (∀ c ∈ a, c.isAlpha = true) → (∀ c ∈ b, c.isAlpha = true) →
    a.length = b.length → lexLtCI a b = true → colValFrom 0 a < colValFrom 0 b := by
  induction a with
  | nil =>
    intro b _ _ hlen hlex
    cases b with
    | nil => simp [lexLtCI] at hlex
    | cons x xs => simp at hlen
  | cons c as ih =>
    intro b ha hb hlen hlex
    cases b with
    | nil => simp [lexLtCI] at hlex
    | cons c' bs =>
      have hlen' : as.length = bs.length := by simpa using hlen
      have hca : c.isAlpha = true := ha c (List.mem_cons_self _ _)
      have hca' : c'.isAlpha = true := hb c' (List.mem_cons_self _ _)
      obtain ⟨hd1, hd2⟩ := xo_dVal_bounds c hca
      obtain ⟨hd1', hd2'⟩ := xo_dVal_bounds c' hca'
      have hva := xo_colVal_bounds as (fun x hx => ha x (List.mem_cons_of_mem _ hx))
      have hvb := xo_colVal_bounds bs (fun x hx => hb x (List.mem_cons_of_mem _ hx))
      rw [xo_colValFrom_cons, xo_colValFrom_cons, xo_colValFrom_shift as, xo_colValFrom_shift bs,
        hlen']
      simp only [zero_mul, zero_add]
      unfold lexLtCI at hlex
      split at hlex
      · -- head strictly smaller
        rename_i hkey
        have hdlt : dVal c < dVal c' := by unfold dVal; omega
        have hpow : (0:Int) < 26 ^ bs.length := by positivity
        have hmin := xo_minV_closed bs.length
        have hmax := xo_maxV_eq bs.length
        have h1 : colValFrom 0 as ≤ maxV bs.length := hlen' ▸ hva.2
        have h2 : minV bs.length ≤ colValFrom 0 bs := hvb.1
        nlinarith
      · split at hlex
        · -- equal heads, lexicographic tail
          rename_i hkey
          have hdeq : dVal c = dVal c' := by unfold dVal; omega
          have := ih bs (fun x hx => ha x (List.mem_cons_of_mem _ hx))
            (fun x hx => hb x (List.mem_cons_of_mem _ hx)) hlen' hlex
          have hpow : (0:Int) ≤ 26 ^ bs.length := by positivity
          rw [hdeq]
          linarith
        · exact absurd hlex (by simp)

/-- C3: the column-index function computes the base-26 value with digits
`A = 1 … Z = 26` most significant first, reproducing spreadsheet column
order: the map is strictly monotone with respect to the spreadsheet column
order, and takes the standard values on `A`, `Z`, `AA`, `AZ`, `BA`. -/
theorem col_index_base26_monotone (s t : String)
    (hs : s.toList ≠ [] ∧ ∀ c ∈ s.toList, c.isAlpha = true)
    (ht : t.toList ≠ [] ∧ ∀ c ∈ t.toList, c.isAlpha = true)
    (hlt : colOrderLt s t = true) :
    col_letters_to_index s < col_letters_to_index t ∧
    col_letters_to_index "A" = 1 ∧ col_letters_to_index "Z" = 26 ∧
    col_letters_to_index "AA" = 27 ∧ col_letters_to_index "AZ" = 52 ∧
    col_letters_to_index "BA" = 53 := by
  refine ⟨?_, by decide, by decide, by decide, by decide, by decide⟩
  have hseq : col_letters_to_index s = colValFrom 0 s.toList := rfl
  have hteq : col_letters_to_index t = colValFrom 0 t.toList := rfl
  rw [hseq, hteq]
  unfold colOrderLt at hlt
  simp only [Bool.or_eq_true, Bool.and_eq_true, decide_eq_true_eq] at hlt
  rcases hlt with h | ⟨h1, h2⟩
  · exact xo_colVal_lt_of_shorter _ _ hs.2 ht.2 h
  · exact xo_colVal_lt_of_lex _ _ hs.2 ht.2 h1 h2

/-- Witness for C3 at `s = "A"`, `t = "b"`. -/
theorem col_index_base26_monotone_witness :
    ("A".toList ≠ [] ∧ ∀ c ∈ "A".toList, c.isAlpha = true) ∧
    ("b".toList ≠ [] ∧ ∀ c ∈ "b".toList, c.isAlpha = true) ∧
    colOrderLt "A" "b" = true ∧
    col_letters_to_index "A" < col_letters_to_index "b" := by
  refine ⟨⟨by decide, by decide⟩, ⟨by decide, by decide⟩, by decide, ?_⟩
  exact (col_index_base26_monotone "A" "b" ⟨by decide, by decide⟩ ⟨by decide, by decide⟩ (by decide)).1

/-! ## Decimal printing and parsing lemmas -/

theorem xo_isDigit_bounds (c : Char) (h : c.isDigit = true) :
    48 ≤ c.toNat ∧ c.toNat ≤ 57 := by
  simp only [Char.isDigit, Bool.and_eq_true, decide_eq_true_eq] at h
  exact ⟨h.1, h.2⟩

theorem xo_digitChar_isDigit (d : Nat) (h : d < 10) : (digitChar d).isDigit = true := by
  interval_cases d <;> decide

theorem xo_digitChar_toNat (d : Nat) (h : d < 10) : (digitChar d).toNat = 48 + d := by
  interval_cases d <;> decide

theorem xo_natDigitsGo_succ (fuel n : Nat) (acc : List Char) :
    natDigitsGo (fuel + 1) n acc =
      if n < 10 then digitChar n :: acc
      else natDigitsGo fuel (n / 10) (digitChar (n % 10) :: acc) := rfl

theorem xo_natDigits_small (n : Nat) (h : n < 10) : natDigits n = [digitChar n] := by
  unfold natDigits
  rw [xo_natDigitsGo_succ, if_pos h]

theorem xo_natDigitsGo_eq (n : Nat) : ∀ fuel acc, n < fuel →
    natDigitsGo fuel n acc = natDigits n ++ acc := by
  induction n using Nat.strong_induction_on with
  | _ n ih =>
    intro fuel acc hfuel
    match fuel with
    | fuel + 1 =>
      rw [xo_natDigitsGo_succ]
      by_cases h10 : n < 10
      · rw [if_pos h10, xo_natDigits_small n h10]
        rfl
      · have hdiv : n / 10 < n := by omega
        have hstep : natDigits n = natDigits (n / 10) ++ [digitChar (n % 10)] := by
          unfold natDigits
          rw [xo_natDigitsGo_succ, if_neg h10, ih (n / 10) hdiv n _ (by omega)]
          rfl
        rw [if_neg h10, ih (n / 10) hdiv fuel _ (by omega), hstep]
        simp

theorem xo_natDigits_step (n : Nat) (h : 10 ≤ n) :
    natDigits n = natDigits (n / 10) ++ [digitChar (n % 10)] := by
  unfold natDigits
  rw [xo_natDigitsGo_succ, if_neg (by omega), xo_natDigitsGo_eq (n / 10) n _ (by omega)]
  rfl

theorem xo_natDigits_ne_nil (n : Nat) : natDigits n ≠ [] := by
  by_cases h : n < 10
  · rw [xo_natDigits_small n h]; simp
  · rw [xo_natDigits_step n (by omega)]; simp

theorem xo_natDigits_digits (n : Nat) : ∀ c ∈ natDigits n, c.isDigit = true := by
  induction n using Nat.strong_induction_on with
  | _ n ih =>
    by_cases h : n < 10
    · rw [xo_natDigits_small n h]
      intro c hc
      simp at hc
      rw [hc]
      exact xo_digitChar_isDigit n h
    · rw [xo_natDigits_step n (by omega)]
      intro c hc
      rcases List.mem_append.1 hc with hc | hc
      · exact ih (n / 10) (by omega) c hc
      · simp at hc
        rw [hc]
        exact xo_digitChar_isDigit (n % 10) (by omega)

theorem xo_digitsVal_natDigits (n : Nat) : digitsVal (natDigits n) = n := by
  induction n using Nat.strong_induction_on with
  | _ n ih =>
    by_cases h : n < 10
    · rw [xo_natDigits_small n h]
      simp only [digitsVal, List.foldl_cons, List.foldl_nil]
      rw [xo_digitChar_toNat n h]
      omega
    · rw [xo_natDigits_step n (by omega)]
      unfold digitsVal
      rw [List.foldl_append]
      have h1 : List.foldl (fun a c => a * 10 + (c.toNat - 48)) 0 (natDigits (n / 10)) = n / 10 :=
        ih (n / 10) (by omega)
      rw [h1]
      simp only [List.foldl_cons, List.foldl_nil]
      rw [xo_digitChar_toNat (n % 10) (by omega)]
      omega

theorem xo_digit_not_space (c : Char) (h : c.isDigit = true) : pyIsSpace c = false := by
  obtain ⟨h1, h2⟩ := xo_isDigit_bounds c h
  unfold pyIsSpace
  simp only [Bool.or_eq_false_iff, decide_eq_false_iff_not]
  refine ⟨⟨⟨⟨⟨?_, ?_⟩, ?_⟩, ?_⟩, ?_⟩, ?_⟩ <;> rintro rfl <;> revert h1 h2 <;> decide

theorem xo_dropWhile_eq_self (l : List Char) (h : ∀ c ∈ l, pyIsSpace c = false) :
    l.dropWhile pyIsSpace = l := by
  cases l with
  | nil => rfl
  | cons c rest =>
    rw [List.dropWhile_cons, h c (List.mem_cons_self _ _)]
    simp

theorem xo_pyStrip_eq_self (l : List Char) (h : ∀ c ∈ l, pyIsSpace c = false) :
    pyStrip l = l := by
  unfold pyStrip
  rw [xo_dropWhile_eq_self l h, xo_dropWhile_eq_self l.reverse
    (fun c hc => h c (List.mem_reverse.1 hc)), List.reverse_reverse]

theorem xo_pyDigitsGo_spec (l : List Char) : ∀ acc, (∀ c ∈ l, c.isDigit = true) →
    pyDigitsGo acc true l = some (List.foldl (fun a c => a * 10 + (c.toNat - 48)) acc l) := by
  induction l with
  | nil => intro acc _; rfl
  | cons c rest ih =>
    intro acc h
    have hc : c.isDigit = true := h c (List.mem_cons_self _ _)
    simp only [pyDigitsGo, hc, if_true, List.foldl_cons]
    exact ih _ (fun x hx => h x (List.mem_cons_of_mem _ hx))

theorem xo_pyDigitsStart_spec (l : List Char) (hne : l ≠ []) (h : ∀ c ∈ l, c.isDigit = true) :
    pyDigitsStart l = some (digitsVal l) := by
  cases l with
  | nil => exact absurd rfl hne
  | cons c rest =>
    have hc : c.isDigit = true := h c (List.mem_cons_self _ _)
    unfold pyDigitsStart
    simp only [pyDigitsGo, hc, if_true]
    rw [xo_pyDigitsGo_spec rest _ (fun x hx => h x (List.mem_cons_of_mem _ hx))]
    simp [digitsVal]

theorem xo_pySigned_cons (c : Char) (rest : List Char) :
    pySigned (c :: rest) =
      if c = '+' then (pyDigitsStart rest).map (fun m : Nat => (m : Int))
      else if c = '-' then (pyDigitsStart rest).map (fun m : Nat => -(m : Int))
      else (pyDigitsStart (c :: rest)).map (fun m : Nat => (m : Int)) := rfl

theorem xo_pyIntParse_pyStr (n : Int) : pyIntParse (pyStr n) = some n := by
  by_cases hn : n < 0
  · have hds := xo_natDigits_digits (-n).toNat
    have hstrip : pyStrip ('-' :: natDigits (-n).toNat) = '-' :: natDigits (-n).toNat := by
      apply xo_pyStrip_eq_self
      intro c hc
      rcases List.mem_cons.1 hc with rfl | hc
      · decide
      · exact xo_digit_not_space c (hds c hc)
    have hs : (pyStr n).toList = '-' :: natDigits (-n).toNat := by
      unfold pyStr
      rw [if_pos hn]
      rfl
    unfold pyIntParse
    rw [hs, hstrip, xo_pySigned_cons, if_neg (by decide), if_pos rfl,
      xo_pyDigitsStart_spec _ (xo_natDigits_ne_nil _) hds, xo_digitsVal_natDigits]
    simp only [Option.map_some']
    congr 1
    omega
  · have hds := xo_natDigits_digits n.toNat
    have hstrip : pyStrip (natDigits n.toNat) = natDigits n.toNat :=
      xo_pyStrip_eq_self _ (fun c hc => xo_digit_not_space c (hds c hc))
    have hs : (pyStr n).toList = natDigits n.toNat := by
      unfold pyStr
      rw [if_neg hn]
      rfl
    obtain ⟨c, rest, hcons⟩ := List.exists_cons_of_ne_nil (xo_natDigits_ne_nil n.toNat)
    have hc : c.isDigit = true := hds c (by rw [hcons]; exact List.mem_cons_self _ _)
    obtain ⟨hc1, hc2⟩ := xo_isDigit_bounds c hc
    have hplus : c ≠ '+' := by
      rintro rfl
      revert hc1 hc2
      decide
    have hminus : c ≠ '-' := by
      rintro rfl
      revert hc1 hc2
      decide
    unfold pyIntParse
    rw [hs, hstrip, hcons, xo_pySigned_cons, if_neg hplus, if_neg hminus, ← hcons,
      xo_pyDigitsStart_spec _ (xo_natDigits_ne_nil _) hds, xo_digitsVal_natDigits]
    simp only [Option.map_some']
    congr 1
    omega

theorem xo_rowNumOf_newRow (rowNum : Int) : rowNumOf (newRow rowNum) = rowNum := by
  unfold rowNumOf newRow
  simp [dictGet, xo_pyIntParse_pyStr]

/-! ## Sorted-insertion lemmas -/

theorem xo_listInsertAt_zero (l : List α) (a : α) : listInsertAt l 0 a = a :: l := rfl

theorem xo_listInsertAt_succ (x : α) (xs : List α) (i : Nat) (a : α) :
    listInsertAt (x :: xs) (i + 1) a = x :: listInsertAt xs i a := rfl

theorem xo_findIdx_cons_eq (p : α → Bool) (x : α) (xs : List α) :
    List.findIdx p (x :: xs) = if p x then 0 else List.findIdx p xs + 1 := by
  rw [List.findIdx_cons]
  cases p x <;> simp

theorem xo_mem_listInsertAt (l : List α) (i : Nat) (a x : α) :
    x ∈ listInsertAt l i a ↔ x = a ∨ x ∈ l := by
  unfold listInsertAt
  simp only [List.mem_append, List.mem_cons]
  constructor
  · rintro (h | h | h)
    · exact Or.inr ((List.take_sublist _ _).mem h)
    · exact Or.inl h
    · exact Or.inr ((List.drop_sublist _ _).mem h)
  · rintro (h | h)
    · exact Or.inr (Or.inl h)
    · rcases List.mem_append.1 (by rw [List.take_append_drop i l]; exact h :
        x ∈ l.take i ++ l.drop i) with h' | h'
      · exact Or.inl h'
      · exact Or.inr (Or.inr h')

theorem xo_take_findIdx_false (p : α → Bool) (l : List α) :
    ∀ x ∈ l.take (List.findIdx p l), p x = false := by
  induction l with
  | nil => simp
  | cons y ys ih =>
    rw [xo_findIdx_cons_eq]
    by_cases hy : p y
    · simp [hy]
    · rw [if_neg hy]
      intro x hx
      rw [List.take_succ_cons] at hx
      rcases List.mem_cons.1 hx with rfl | hx
      · exact Bool.eq_false_iff.mpr hy
      · exact ih x hx

theorem xo_insert_sorted_generic (key : α → Int) (pred : α → Bool) (v : Int)
    (hF : ∀ x, pred x = false → key x ≤ v)
    (hT : ∀ x, pred x = true → v < key x) :
    ∀ (l : List α) (a : α), key a = v → List.Sorted (· ≤ ·) (l.map key) →
      List.Sorted (· ≤ ·) ((listInsertAt l (List.findIdx pred l) a).map key) := by
  intro l
  induction l with
  | nil =>
    intro a _ _
    simp [listInsertAt, List.Sorted]
  | cons x xs ih =>
    intro a hka hs
    rw [List.map_cons, List.sorted_cons] at hs
    obtain ⟨hx, hs⟩ := hs
    rw [xo_findIdx_cons_eq]
    by_cases hpx : pred x
    · rw [if_pos hpx, xo_listInsertAt_zero, List.map_cons, List.map_cons, List.sorted_cons]
      have hvx : v < key x := hT x hpx
      refine ⟨?_, List.sorted_cons.2 ⟨hx, hs⟩⟩
      intro b hb
      rcases List.mem_cons.1 hb with rfl | hb
      · linarith
      · have := hx b hb
        linarith
    · rw [if_neg hpx, xo_listInsertAt_succ, List.map_cons, List.sorted_cons]
      refine ⟨?_, ih a hka hs⟩
      intro b hb
      rw [List.mem_map] at hb
      obtain ⟨y, hy, rfl⟩ := hb
      rcases (xo_mem_listInsertAt _ _ _ _).1 hy with rfl | hy
      · rw [hka]
        exact hF x (by simpa using hpx)
      · exact hx (key y) (List.mem_map_of_mem key hy)

theorem xo_cellColIdx_newCell (address L : String) (n : Int)
    (hp : parse_cell_ref address = some (L, n)) :
    cellColIdx (newCell address) = some (col_letters_to_index L) := by
  unfold cellColIdx newCell
  simp [dictGet, hp]

theorem xo_parse_fields (address L : String) (n : Int)
    (hp : parse_cell_ref address = some (L, n)) :
    L.toList = (address.toList.takeWhile Char.isAlpha).map Char.toUpper ∧
    (address.toList.takeWhile Char.isAlpha) ≠ [] ∧
    n = (digitsVal (address.toList.drop (address.toList.takeWhile Char.isAlpha).length) : Nat) := by
  unfold parse_cell_ref at hp
  dsimp only at hp
  split at hp
  · rename_i hcond
    simp only [Bool.and_eq_true, decide_eq_true_eq, ne_eq] at hcond
    injection hp with hp
    injection hp with hL hn
    refine ⟨?_, hcond.1.1, hn.symm⟩
    rw [← hL]
    rfl
  · exact absurd hp (by simp)

theorem xo_toUpper_isAlpha (c : Char) (h : c.isAlpha = true) :
    (Char.toUpper c).isAlpha = true := by
  obtain ⟨h1, h2⟩ := xo_toUpper_bounds c h
  have : (Char.toUpper c).isUpper = true := by
    simp only [Char.isUpper, Bool.and_eq_true, decide_eq_true_eq]
    exact ⟨h1, h2⟩
  simp [Char.isAlpha, this]

theorem xo_parse_col_pos (address L : String) (n : Int)
    (hp : parse_cell_ref address = some (L, n)) :
    1 ≤ col_letters_to_index L := by
  obtain ⟨hL, hne, _⟩ := xo_parse_fields address L n hp
  have h1 : L.toList ≠ [] := by
    rw [hL]
    simpa using hne
  have h2 : ∀ c ∈ L.toList, c.isAlpha = true := by
    rw [hL]
    intro c hc
    rw [List.mem_map] at hc
    obtain ⟨c', hc', rfl⟩ := hc
    exact xo_toUpper_isAlpha c' (List.mem_takeWhile_imp hc')
  exact xo_colVal_pos L.toList h1 h2

theorem xo_findIdx_congr (p q : α → Bool) (l : List α) (h : ∀ x ∈ l, p x = q x) :
    List.findIdx p l = List.findIdx q l := by
  induction l with
  | nil => rfl
  | cons x xs ih =>
    rw [xo_findIdx_cons_eq, xo_findIdx_cons_eq, h x (List.mem_cons_self _ _),
      ih (fun y hy => h y (List.mem_cons_of_mem _ hy))]

/-- C2: on a worksheet document with rows sorted ascending by row number and
cells sorted ascending by column index, the sorted row inserter and the
sorted cell inserter keep every existing sibling in place (the result is the
original list split around the new node), place the new node immediately
before the first sibling exceeding the target (at the end when none does),
and preserve both sortedness invariants. -/
theorem insert_sorted_preserves_order
    (rows : List Row) (rowNum : Int) (cells : List Cell) (address L : String) (n : Int)
    (hp : parse_cell_ref address = some (L, n))
    (hsr : List.Sorted (· ≤ ·) (rows.map rowNumOf))
    (hsc : List.Sorted (· ≤ ·) (cells.map (fun c => (cellColIdx c).getD 0))) :
    ((insert_row_sorted rows rowNum).1 =
        rows.take (insertRowPos rows rowNum) ++ newRow rowNum :: rows.drop (insertRowPos rows rowNum)
      ∧ insertRowPos rows rowNum ≤ rows.length
      ∧ (∀ x ∈ rows.take (insertRowPos rows rowNum), ¬ rowNum < rowNumOf x)
      ∧ (∀ h : insertRowPos rows rowNum < rows.length,
          rowNum < rowNumOf (rows.get ⟨insertRowPos rows rowNum, h⟩))
      ∧ List.Sorted (· ≤ ·) (((insert_row_sorted rows rowNum).1).map rowNumOf))
    ∧ (∃ res pos, insert_cell_sorted cells address = some (res, pos)
      ∧ res = cells.take pos ++ newCell address :: cells.drop pos
      ∧ pos ≤ cells.length
      ∧ (∀ x ∈ cells.take pos, ¬ col_letters_to_index L < (cellColIdx x).getD 0)
      ∧ (∀ h : pos < cells.length,
          col_letters_to_index L < (cellColIdx (cells.get ⟨pos, h⟩)).getD 0)
      ∧ List.Sorted (· ≤ ·) (res.map (fun c => (cellColIdx c).getD 0))) := by
  have hvpos := xo_parse_col_pos address L n hp
  constructor
  · refine ⟨rfl, List.findIdx_le_length _, ?_, ?_, ?_⟩
    · intro x hx
      have := xo_take_findIdx_false (fun r => decide (rowNumOf r > rowNum)) rows x hx
      simpa using this
    · intro h
      have := @List.findIdx_getElem _ (fun r => decide (rowNumOf r > rowNum)) rows h
      simpa using this
    · exact xo_insert_sorted_generic rowNumOf (fun r => decide (rowNumOf r > rowNum)) rowNum
        (fun x hx => by simpa using hx)
        (fun x hx => by simpa using hx)
        rows (newRow rowNum) (xo_rowNumOf_newRow rowNum) hsr
  · refine ⟨listInsertAt cells (insertCellPos cells (col_letters_to_index L)) (newCell address),
      insertCellPos cells (col_letters_to_index L), ?_, rfl, List.findIdx_le_length _, ?_, ?_, ?_⟩
    · unfold insert_cell_sorted
      rw [hp]
      rfl
    · intro x hx
      have hf := xo_take_findIdx_false _ cells x hx
      cases hc : cellColIdx x with
      | none =>
        simp only [Option.getD_none]
        omega
      | some e =>
        simp only [hc] at hf
        simp only [Option.getD_some]
        simp only [decide_eq_false_iff_not] at hf
        omega
    · intro h
      have hf2 : (match cellColIdx (cells.get
            ⟨insertCellPos cells (col_letters_to_index L), h⟩) with
          | some e => decide (e > col_letters_to_index L)
          | none => false) = true :=
        @List.findIdx_getElem _
          (fun c => match cellColIdx c with
            | some e => decide (e > col_letters_to_index L) | none => false)
          cells h
      cases hc : cellColIdx (cells.get ⟨insertCellPos cells (col_letters_to_index L), h⟩) with
      | none => simp only [hc] at hf2; simp at hf2
      | some e =>
        simp only [hc] at hf2
        simp only [decide_eq_true_eq] at hf2
        simp only [Option.getD_some]
        omega
    · refine xo_insert_sorted_generic (fun c => (cellColIdx c).getD 0)
        (fun c => match cellColIdx c with
          | some e => decide (e > col_letters_to_index L)
          | none => false)
        (col_letters_to_index L) ?_ ?_ cells (newCell address) ?_ hsc
      · intro x hx
        simp only [] at hx ⊢
        cases hc : cellColIdx x with
        | none => simp only [hc, Option.getD_none]; omega
        | some e =>
          simp only [hc] at hx ⊢
          simp only [decide_eq_false_iff_not] at hx
          simp only [Option.getD_some]
          omega
      · intro x hx
        simp only [] at hx ⊢
        cases hc : cellColIdx x with
        | none => simp only [hc] at hx; simp at hx
        | some e =>
          simp only [hc] at hx ⊢
          simp only [decide_eq_true_eq] at hx
          simp only [Option.getD_some]
          omega
      · simp only []
        rw [xo_cellColIdx_newCell address L n hp]
        rfl

/-- Witness for C2: inserting row `2` between rows `1` and `3`, and cell
`B1` between cells `A1` and `C1`. -/
theorem insert_sorted_preserves_order_witness :
    parse_cell_ref "B1" = some ("B", 1) ∧
    List.Sorted (· ≤ ·) ([⟨[("r", "1")], []⟩, ⟨[("r", "3")], []⟩].map rowNumOf) ∧
    List.Sorted (· ≤ ·)
      ([newCell "A1", newCell "C1"].map (fun c => (cellColIdx c).getD 0)) ∧
    (insert_row_sorted [⟨[("r", "1")], []⟩, ⟨[("r", "3")], []⟩] 2).2 = 1 ∧
    (insert_cell_sorted [newCell "A1", newCell "C1"] "B1").map Prod.snd = some 1 := by
  have h := insert_sorted_preserves_order [⟨[("r", "1")], []⟩, ⟨[("r", "3")], []⟩] 2
    [newCell "A1", newCell "C1"] "B1" "B" 1 (by rfl)
    (by decide) (by decide)
  refine ⟨by rfl, by decide, by decide, by decide, by decide⟩

/-- C8: with malformed sibling address attributes present, sorted insertion
still succeeds (never raises): each malformed sibling counts as column index
0 (or row number 0), which never exceeds the target, so it does not affect
the break position; siblings are kept unchanged in order and the new node is
inserted at the position the well-formed siblings determine. -/
theorem insert_sorted_malformed_safe
    (cells : List Cell) (address L : String) (n : Int)
    (hp : parse_cell_ref address = some (L, n))
    (rows : List Row) (rowNum : Int) (hr : 0 ≤ rowNum) :
    (∃ res pos, insert_cell_sorted cells address = some (res, pos)
      ∧ res = cells.take pos ++ newCell address :: cells.drop pos
      ∧ pos = List.findIdx
          (fun c => decide (col_letters_to_index L < (cellColIdx c).getD 0)) cells)
    ∧ (∀ c : Cell, cellColIdx c = none →
        ¬ col_letters_to_index L < (cellColIdx c).getD 0)
    ∧ ((insert_row_sorted rows rowNum).1 =
        rows.take (insertRowPos rows rowNum) ++ newRow rowNum :: rows.drop (insertRowPos rows rowNum))
    ∧ (∀ r : Row, pyIntParse ((dictGet r.attrib "r").getD "0") = none →
        rowNumOf r = 0 ∧ ¬ rowNum < rowNumOf r) := by
  have hvpos := xo_parse_col_pos address L n hp
  refine ⟨?_, ?_, rfl, ?_⟩
  · refine ⟨listInsertAt cells (insertCellPos cells (col_letters_to_index L)) (newCell address),
      insertCellPos cells (col_letters_to_index L), ?_, rfl, ?_⟩
    · unfold insert_cell_sorted
      rw [hp]
      rfl
    · unfold insertCellPos
      apply xo_findIdx_congr
      intro x _
      cases hc : cellColIdx x with
      | none =>
        simp only [Option.getD_none]
        rw [decide_eq_false]
        omega
      | some e =>
        simp only [Option.getD_some]
  · intro c hc
    rw [hc]
    simp only [Option.getD_none]
    omega
  · intro r hr'
    have h0 : rowNumOf r = 0 := by
      unfold rowNumOf
      rw [hr']
    exact ⟨h0, by omega⟩

/-- Witness for C8: a malformed sibling (`r = "??"`) is skipped and the new
cell `B1` still lands before `C1`; a malformed row attribute is ordered as
row number `0`. -/
theorem insert_sorted_malformed_safe_witness :
    parse_cell_ref "B1" = some ("B", 1) ∧ (0 : Int) ≤ 2 ∧
    (insert_cell_sorted [⟨[("r", "??")], none, .nil⟩, newCell "C1"] "B1").map Prod.snd = some 1 ∧
    rowNumOf ⟨[("r", "x")], []⟩ = 0 := by
  have h := insert_sorted_malformed_safe [⟨[("r", "??")], none, .nil⟩, newCell "C1"] "B1" "B" 1
    (by rfl) [⟨[("r", "x")], []⟩] 2 (by omega)
  refine ⟨by rfl, by omega, by decide, ?_⟩
  exact (h.2.2.2 ⟨[("r", "x")], []⟩ (by rfl)).1

/-! ## Value extraction (C9) -/

/-- C9: the value extractor agrees with its specification contract: inline
strings concatenate all descendant text nodes in document order; a
shared-string reference resolves the parsed in-range index through the table
and otherwise falls back to the raw value text; every other type returns the
raw value text; a missing value node on a non-inline cell gives `""`. -/
theorem extract_cell_text_correct (cell : Cell) (shared : List String) :
    extract_cell_text cell shared = spec_extract_value cell shared := by
  unfold extract_cell_text spec_extract_value
  by_cases h1 : dictGet cell.attrib "t" = some "inlineStr"
  · rw [if_pos h1, if_pos h1]
  · rw [if_neg h1, if_neg h1]
    cases hv : forestFind (fun n => n.tag = "v") cell.children with
    | none => rfl
    | some v =>
      simp only []
      cases ht : v.text with
      | some raw => rfl
      | none =>
        simp only [Option.getD_none]
        by_cases h2 : dictGet cell.attrib "t" = some "s"
        · rw [if_pos h2]
          rfl
        · rw [if_neg h2]

/-! ## Validation of changes (C1) -/

/-- C1: for a change whose (stripped) source address parses, the change is
applied exactly when the trimmed current value (empty when the row or cell
is absent) equals the trimmed `beforeName` or `afterName`; otherwise one
issue with the exact mismatch reason is recorded and the document is
returned unchanged. -/
theorem patch_validation_iff (shared : List String) (sd : List Row) (c : Change)
    (L : String) (rn : Int)
    (hp : parse_cell_ref (pyStripStr c.sourceAddress) = some (L, rn)) :
    ((applyChange shared sd c).applied = true ↔
      (pyStripStr (currentValueAt sd shared rn (pyStripStr c.sourceAddress)) =
          pyStripStr c.beforeName ∨
       pyStripStr (currentValueAt sd shared rn (pyStripStr c.sourceAddress)) =
          pyStripStr c.afterName)) ∧
    ((pyStripStr (currentValueAt sd shared rn (pyStripStr c.sourceAddress)) ≠
          pyStripStr c.beforeName ∧
      pyStripStr (currentValueAt sd shared rn (pyStripStr c.sourceAddress)) ≠
          pyStripStr c.afterName) →
      (applyChange shared sd c).issue = some (mkIssue c (pyStripStr c.sourceAddress)
          (mismatchReason c.beforeName
            (currentValueAt sd shared rn (pyStripStr c.sourceAddress)))) ∧
      (applyChange shared sd c).doc = sd ∧
      (applyChange shared sd c).applied = false) := by
  have hstep : applyChange shared sd c =
      (if pyStripStr (currentValueAt sd shared rn (pyStripStr c.sourceAddress)) =
            pyStripStr c.beforeName ∨
          pyStripStr (currentValueAt sd shared rn (pyStripStr c.sourceAddress)) =
            pyStripStr c.afterName then
        { doc := applyWrite sd rn (pyStripStr c.sourceAddress) L c.afterName,
          applied := true, issue := none }
      else
        { doc := sd, applied := false,
          issue := some (mkIssue c (pyStripStr c.sourceAddress)
            (mismatchReason c.beforeName
              (currentValueAt sd shared rn (pyStripStr c.sourceAddress)))) }) := by
    unfold applyChange
    simp only []
    rw [hp]
  by_cases hcond : pyStripStr (currentValueAt sd shared rn (pyStripStr c.sourceAddress)) =
        pyStripStr c.beforeName ∨
      pyStripStr (currentValueAt sd shared rn (pyStripStr c.sourceAddress)) =
        pyStripStr c.afterName
  · rw [hstep, if_pos hcond]
    constructor
    · simp only [true_iff]
      exact hcond
    · intro hne
      rcases hcond with h | h
      · exact absurd h hne.1
      · exact absurd h hne.2
  · rw [hstep, if_neg hcond]
    constructor
    · simp only [Bool.false_eq_true, false_iff]
      exact hcond
    · intro _
      exact ⟨rfl, rfl, rfl⟩

/-- Witness for C1: empty document, so the current value is `""`, which
matches neither `"Old"` nor `"New"`. -/
theorem patch_validation_iff_witness :
    parse_cell_ref (pyStripStr "A1") = some ("A", 1) ∧
    (((applyChange [] [] ⟨"S", "A1", "Old", "New", 0, none, none⟩).applied = true ↔
      (pyStripStr (currentValueAt [] [] 1 (pyStripStr "A1")) = pyStripStr "Old" ∨
       pyStripStr (currentValueAt [] [] 1 (pyStripStr "A1")) = pyStripStr "New")) ∧
     ((pyStripStr (currentValueAt [] [] 1 (pyStripStr "A1")) ≠ pyStripStr "Old" ∧
       pyStripStr (currentValueAt [] [] 1 (pyStripStr "A1")) ≠ pyStripStr "New") →
      (applyChange [] [] ⟨"S", "A1", "Old", "New", 0, none, none⟩).issue =
        some (mkIssue ⟨"S", "A1", "Old", "New", 0, none, none⟩ (pyStripStr "A1")
          (mismatchReason "Old" (currentValueAt [] [] 1 (pyStripStr "A1")))) ∧
      (applyChange [] [] ⟨"S", "A1", "Old", "New", 0, none, none⟩).doc = [] ∧
      (applyChange [] [] ⟨"S", "A1", "Old", "New", 0, none, none⟩).applied = false)) :=
  ⟨by rfl, patch_validation_iff [] [] ⟨"S", "A1", "Old", "New", 0, none, none⟩ "A" 1 (by rfl)⟩

/-! ## Idempotent application (C7) -/

theorem xo_dictGet_dictSet (d : List (String × String)) (k v : String) :
    dictGet (dictSet d k v) k = some v := by
  induction d with
  | nil => simp [dictGet, dictSet]
  | cons kv rest ih =>
    obtain ⟨k', v'⟩ := kv
    by_cases hk : k' = k
    · simp [dictGet, dictSet, hk]
    · simp only [dictSet, if_neg hk, dictGet, ih]

theorem xo_join_singleton (s : String) : String.join [s] = s := by
  simp [String.join]

theorem xo_extract_write (cell : Cell) (aft : String) (shared : List String) :
    extract_cell_text (write_inline_string cell aft) shared = aft := by
  unfold extract_cell_text write_inline_string
  rw [if_pos (by simp only []; exact xo_dictGet_dictSet cell.attrib "t" "inlineStr")]
  simp only []
  rw [show tTextsForest (.cons (XNode.node "is" [] none
      (.cons (XNode.node "t" (if aft.startsWith " " || aft.endsWith " " then
        [("xml:space", "preserve")] else []) (some aft) .nil) .nil)) .nil) = [aft] from rfl]
  exact xo_join_singleton aft

/-- C7: a change whose target cell's trimmed current value already equals
the trimmed `afterName` passes validation, is counted as applied, rewrites
exactly that cell to an inline string whose read-back value is `afterName`
(forcing `inlineStr` typing), and leaves every other row and cell of the
document unchanged. -/
theorem idempotent_apply (shared : List String) (sd : List Row) (c : Change)
    (L : String) (rn : Int) (ri ci : Nat) (row : Row) (cell : Cell)
    (hp : parse_cell_ref (pyStripStr c.sourceAddress) = some (L, rn))
    (hri : findRowIdx sd rn = some ri)
    (hrow : sd.get? ri = some row)
    (hci : findCellIdx row.cells (pyStripStr c.sourceAddress) = some ci)
    (hcell : row.cells.get? ci = some cell)
    (hval : pyStripStr (extract_cell_text cell shared) = pyStripStr c.afterName) :
    (applyChange shared sd c).applied = true ∧
    (applyChange shared sd c).issue = none ∧
    (applyChange shared sd c).doc =
      sd.set ri { row with cells := row.cells.set ci (write_inline_string cell c.afterName) } ∧
    dictGet (write_inline_string cell c.afterName).attrib "t" = some "inlineStr" ∧
    extract_cell_text (write_inline_string cell c.afterName) shared = c.afterName := by
  have hcur : currentValueAt sd shared rn (pyStripStr c.sourceAddress) =
      extract_cell_text cell shared := by
    unfold currentValueAt find_row find_cell
    rw [hri, Option.some_bind, hrow]
    simp only []
    rw [hci, Option.some_bind, hcell]
  have happ : applyChange shared sd c =
      { doc := applyWrite sd rn (pyStripStr c.sourceAddress) L c.afterName,
        applied := true, issue := none } := by
    unfold applyChange
    simp only []
    rw [hp]
    simp only []
    rw [if_pos (Or.inr (by rw [hcur]; exact hval))]
  have hwrite : applyWrite sd rn (pyStripStr c.sourceAddress) L c.afterName =
      sd.set ri { row with cells := row.cells.set ci (write_inline_string cell c.afterName) } := by
    unfold applyWrite listModifyAt
    rw [hri]
    simp only []
    rw [hrow]
    simp only []
    congr 1
    unfold rowWrite listModifyAt
    rw [hci]
    simp only []
    rw [hcell]
  refine ⟨by rw [happ], by rw [happ], by rw [happ]; exact hwrite, ?_, ?_⟩
  · unfold write_inline_string
    simp only []
    exact xo_dictGet_dictSet cell.attrib "t" "inlineStr"
  · exact xo_extract_write cell c.afterName shared

/-- Witness for C7: cell `A1` already holds inline string `"New"`, the
change rewrites it to `"New"` and is still counted as applied. -/
theorem idempotent_apply_witness :
    parse_cell_ref (pyStripStr "A1") = some ("A", 1) ∧
    pyStripStr (extract_cell_text ⟨[("r", "A1"), ("t", "inlineStr")], none,
        .cons (XNode.node "is" [] none (.cons (XNode.node "t" [] (some "New") .nil) .nil)) .nil⟩ [])
      = pyStripStr "New" ∧
    (applyChange [] [⟨[("r", "1")], [⟨[("r", "A1"), ("t", "inlineStr")], none,
        .cons (XNode.node "is" [] none (.cons (XNode.node "t" [] (some "New") .nil) .nil)) .nil⟩]⟩]
      ⟨"S", "A1", "x", "New", 0, none, none⟩).applied = true ∧
    (applyChange [] [⟨[("r", "1")], [⟨[("r", "A1"), ("t", "inlineStr")], none,
        .cons (XNode.node "is" [] none (.cons (XNode.node "t" [] (some "New") .nil) .nil)) .nil⟩]⟩]
      ⟨"S", "A1", "x", "New", 0, none, none⟩).issue = none ∧
    extract_cell_text (write_inline_string ⟨[("r", "A1"), ("t", "inlineStr")], none,
        .cons (XNode.node "is" [] none (.cons (XNode.node "t" [] (some "New") .nil) .nil)) .nil⟩
      "New") [] = "New" := by
  have h := idempotent_apply [] [⟨[("r", "1")], [⟨[("r", "A1"), ("t", "inlineStr")], none,
      .cons (XNode.node "is" [] none (.cons (XNode.node "t" [] (some "New") .nil) .nil)) .nil⟩]⟩]
    ⟨"S", "A1", "x", "New", 0, none, none⟩ "A" 1 0 0
    ⟨[("r", "1")], [⟨[("r", "A1"), ("t", "inlineStr")], none,
      .cons (XNode.node "is" [] none (.cons (XNode.node "t" [] (some "New") .nil) .nil)) .nil⟩]⟩
    ⟨[("r", "A1"), ("t", "inlineStr")], none,
      .cons (XNode.node "is" [] none (.cons (XNode.node "t" [] (some "New") .nil) .nil)) .nil⟩
    (by rfl) (by rfl) (by rfl) (by rfl) (by rfl) (by rfl)
  exact ⟨by rfl, by rfl, h.1, h.2.1, h.2.2.2.2⟩

/-! ## Accounting invariant (C10) -/

theorem xo_applyChange_none (shared : List String) (sd : List Row) (c : Change)
    (hp : parse_cell_ref (pyStripStr c.sourceAddress) = none) :
    applyChange shared sd c =
      { doc := sd, applied := false,
        issue := some (mkIssue c (pyStripStr c.sourceAddress)
          ("Invalid cell address: " ++ pyStripStr c.sourceAddress)) } := by
  unfold applyChange
  simp only []
  rw [hp]

theorem xo_applyChange_some (shared : List String) (sd : List Row) (c : Change)
    (L : String) (rn : Int)
    (hp : parse_cell_ref (pyStripStr c.sourceAddress) = some (L, rn)) :
    applyChange shared sd c =
      if pyStripStr (currentValueAt sd shared rn (pyStripStr c.sourceAddress)) =
            pyStripStr c.beforeName ∨
          pyStripStr (currentValueAt sd shared rn (pyStripStr c.sourceAddress)) =
            pyStripStr c.afterName then
        { doc := applyWrite sd rn (pyStripStr c.sourceAddress) L c.afterName,
          applied := true, issue := none }
      else
        { doc := sd, applied := false,
          issue := some (mkIssue c (pyStripStr c.sourceAddress)
            (mismatchReason c.beforeName
              (currentValueAt sd shared rn (pyStripStr c.sourceAddress)))) } := by
  unfold applyChange
  simp only []
  rw [hp]

theorem xo_applyChange_one (shared : List String) (sd : List Row) (c : Change) :
    (if (applyChange shared sd c).applied then 1 else 0) +
      ((applyChange shared sd c).issue).toList.length = 1 := by
  cases hp : parse_cell_ref (pyStripStr c.sourceAddress) with
  | none =>
    rw [xo_applyChange_none shared sd c hp]
    rfl
  | some p =>
    obtain ⟨L, rn⟩ := p
    rw [xo_applyChange_some shared sd c L rn hp]
    split <;> rfl

theorem xo_patch_fold (shared : List String) (changes : List Change) :
    ∀ acc : PatchResult,
      (changes.foldl (patchStep shared) acc).applied +
        (changes.foldl (patchStep shared) acc).issues.length =
      acc.applied + acc.issues.length + changes.length := by
  induction changes with
  | nil => intro acc; simp
  | cons c cs ih =>
    intro acc
    rw [List.foldl_cons, ih (patchStep shared acc c)]
    have h1 := xo_applyChange_one shared acc.doc c
    unfold patchStep
    simp only [List.length_append, List.length_cons]
    omega

theorem xo_patch_total (sd : List Row) (shared : List String) (changes : List Change) :
    (patch_sheet_xml sd shared changes).applied +
      (patch_sheet_xml sd shared changes).issues.length = changes.length := by
  unfold patch_sheet_xml
  rw [xo_patch_fold shared changes { doc := sd, applied := 0, issues := [] }]
  simp

theorem xo_assocAppend_size (g : List (String × List Change)) (k : String) (c : Change) :
    ((assocAppend g k c).map (fun pc => pc.2.length)).sum =
      (g.map (fun pc => pc.2.length)).sum + 1 := by
  induction g with
  | nil => simp [assocAppend]
  | cons kv rest ih =>
    obtain ⟨k', l⟩ := kv
    by_cases hk : k' = k
    · simp [assocAppend, hk]
      omega
    · simp only [assocAppend, if_neg hk, List.map_cons, List.sum_cons, ih]
      omega

theorem xo_group_fold (sheetMap : List (String × String)) (changes : List Change) :
    ∀ acc : List (String × List Change) × List Issue,
      (((changes.foldl (groupStep sheetMap) acc).1.map (fun pc => pc.2.length)).sum +
        (changes.foldl (groupStep sheetMap) acc).2.length) =
      ((acc.1.map (fun pc => pc.2.length)).sum + acc.2.length) + changes.length := by
  induction changes with
  | nil => intro acc; simp
  | cons c cs ih =>
    intro acc
    rw [List.foldl_cons, ih (groupStep sheetMap acc c)]
    unfold groupStep
    cases assocGet sheetMap c.sheetName with
    | none =>
      simp only [List.length_append, List.length_cons, List.length_nil]
      omega
    | some p =>
      simp only []
      by_cases hp : p = ""
      · rw [if_pos hp]
        simp only [List.length_append, List.length_cons, List.length_nil]
        omega
      · rw [if_neg hp]
        simp only [xo_assocAppend_size, List.length_cons]
        omega

theorem xo_process_fold (archive : List (String × List Row)) (shared : List String)
    (grouped : List (String × List Change)) :
    ∀ acc : RunResult,
      (grouped.foldl (processStep archive shared) acc).applied +
        (grouped.foldl (processStep archive shared) acc).issues.length =
      acc.applied + acc.issues.length + (grouped.map (fun pc => pc.2.length)).sum := by
  induction grouped with
  | nil => intro acc; simp
  | cons pc rest ih =>
    intro acc
    rw [List.foldl_cons, ih (processStep archive shared acc pc)]
    unfold processStep
    cases assocGet archive pc.1 with
    | none => simp; omega
    | some doc =>
      simp only [List.length_append, List.map_cons, List.sum_cons]
      have h := xo_patch_total doc shared pc.2
      omega

/-- C10: every change request produces exactly one outcome, so the reported
applied count plus the number of recorded issues equals the number of change
requests in the payload. -/
theorem applied_plus_issues_eq_changes (archive : List (String × List Row))
    (sheetMap : List (String × String)) (shared : List String) (changes : List Change) :
    (processChanges archive sheetMap shared changes).applied +
      (processChanges archive sheetMap shared changes).issues.length = changes.length := by
  unfold processChanges
  simp only []
  rw [xo_process_fold archive shared (groupChanges sheetMap changes).1
    { replacements := [], applied := 0, issues := (groupChanges sheetMap changes).2 }]
  have h := xo_group_fold sheetMap changes ([], [])
  unfold groupChanges
  simp at h ⊢
  omega

/-! ## Case handling of addresses (C4) -/

theorem xo_toUpper_eq_of_not_lower (c : Char) (h : ¬(97 ≤ c.toNat ∧ c.toNat ≤ 122)) :
    c.toUpper = c := by
  unfold Char.toUpper
  rw [if_neg h]

theorem xo_toUpper_of_lower (c : Char) (h : 97 ≤ c.toNat ∧ c.toNat ≤ 122) :
    c.toUpper.toNat = c.toNat - 32 := by
  unfold Char.toUpper
  rw [if_pos h, xo_toNat_ofNat _ (Or.inl (by omega))]

theorem xo_toUpper_idem (c : Char) : c.toUpper.toUpper = c.toUpper := by
  by_cases h : 97 ≤ c.toNat ∧ c.toNat ≤ 122
  · apply xo_toUpper_eq_of_not_lower
    rw [xo_toUpper_of_lower c h]
    omega
  · rw [xo_toUpper_eq_of_not_lower c h, xo_toUpper_eq_of_not_lower c h]

theorem xo_isAlpha_iff (c : Char) :
    c.isAlpha = true ↔ ((65 ≤ c.toNat ∧ c.toNat ≤ 90) ∨ (97 ≤ c.toNat ∧ c.toNat ≤ 122)) := by
  simp only [Char.isAlpha, Char.isUpper, Char.isLower, Bool.or_eq_true, Bool.and_eq_true,
    decide_eq_true_eq]
  constructor
  · rintro (⟨h1, h2⟩ | ⟨h1, h2⟩)
    · exact Or.inl ⟨h1, h2⟩
    · exact Or.inr ⟨h1, h2⟩
  · rintro (⟨h1, h2⟩ | ⟨h1, h2⟩)
    · exact Or.inl ⟨h1, h2⟩
    · exact Or.inr ⟨h1, h2⟩

theorem xo_isDigit_iff (c : Char) :
    c.isDigit = true ↔ (48 ≤ c.toNat ∧ c.toNat ≤ 57) := by
  simp only [Char.isDigit, Bool.and_eq_true, decide_eq_true_eq]
  constructor
  · rintro ⟨h1, h2⟩; exact ⟨h1, h2⟩
  · rintro ⟨h1, h2⟩; exact ⟨h1, h2⟩

theorem xo_isAlpha_toUpper_eq (c : Char) : c.toUpper.isAlpha = c.isAlpha := by
  by_cases h : 97 ≤ c.toNat ∧ c.toNat ≤ 122
  · have h1 := xo_toUpper_of_lower c h
    have h2 : c.toUpper.isAlpha = true := (xo_isAlpha_iff _).2 (Or.inl (by omega))
    have h3 : c.isAlpha = true := (xo_isAlpha_iff _).2 (Or.inr h)
    rw [h2, h3]
  · rw [xo_toUpper_eq_of_not_lower c h]

theorem xo_isDigit_toUpper_eq (c : Char) : c.toUpper.isDigit = c.isDigit := by
  by_cases h : 97 ≤ c.toNat ∧ c.toNat ≤ 122
  · have h1 := xo_toUpper_of_lower c h
    have h2 : c.toUpper.isDigit = false := by
      rw [← Bool.not_eq_true]
      intro hcon
      have := (xo_isDigit_iff _).1 hcon
      omega
    have h3 : c.isDigit = false := by
      rw [← Bool.not_eq_true]
      intro hcon
      have := (xo_isDigit_iff _).1 hcon
      omega
    rw [h2, h3]
  · rw [xo_toUpper_eq_of_not_lower c h]

theorem xo_toUpper_of_digit (c : Char) (h : c.isDigit = true) : c.toUpper = c := by
  apply xo_toUpper_eq_of_not_lower
  have := (xo_isDigit_iff _).1 h
  omega

theorem xo_parse_upper (a : String) :
    parse_cell_ref a = parse_cell_ref (String.mk (a.toList.map Char.toUpper)) := by
  have hAlphaComp : (Char.isAlpha ∘ Char.toUpper) = Char.isAlpha :=
    funext (fun c => xo_isAlpha_toUpper_eq c)
  have hDigitComp : (Char.isDigit ∘ Char.toUpper) = Char.isDigit :=
    funext (fun c => xo_isDigit_toUpper_eq c)
  unfold parse_cell_ref
  dsimp only
  rw [show (String.mk (a.toList.map Char.toUpper)).toList = a.toList.map Char.toUpper from rfl]
  rw [List.takeWhile_map, hAlphaComp, List.length_map, ← List.map_drop]
  rw [List.all_map, hDigitComp]
  rw [show decide (List.map Char.toUpper (a.toList.takeWhile Char.isAlpha) ≠ []) =
    decide (a.toList.takeWhile Char.isAlpha ≠ []) from by simp [List.map_eq_nil_iff]]
  rw [show decide (List.map Char.toUpper
      (a.toList.drop (a.toList.takeWhile Char.isAlpha).length) ≠ []) =
    decide (a.toList.drop (a.toList.takeWhile Char.isAlpha).length ≠ []) from by
      simp [List.map_eq_nil_iff]]
  by_cases hcond : ((a.toList.takeWhile Char.isAlpha ≠ []) &&
      (a.toList.drop (a.toList.takeWhile Char.isAlpha).length ≠ []) &&
      (a.toList.drop (a.toList.takeWhile Char.isAlpha).length).all Char.isDigit) = true
  · rw [if_pos hcond, if_pos hcond]
    simp only [Bool.and_eq_true, decide_eq_true_eq] at hcond
    obtain ⟨⟨h1, h2⟩, h3⟩ := hcond
    have hall := List.all_eq_true.1 h3
    have hdig : List.map Char.toUpper (a.toList.drop (a.toList.takeWhile Char.isAlpha).length) =
        a.toList.drop (a.toList.takeWhile Char.isAlpha).length := by
      rw [List.map_congr_left (fun c hc => xo_toUpper_of_digit c (hall c hc))]
      exact List.map_id _
    rw [List.map_map, show (Char.toUpper ∘ Char.toUpper) = Char.toUpper from
      funext (fun c => xo_toUpper_idem c), hdig]
  · rw [if_neg hcond, if_neg hcond]

theorem xo_findIdx?_none (p : α → Bool) (l : List α) (h : ∀ x ∈ l, p x = false) :
    ∀ i, List.findIdx? p l i = none := by
  induction l with
  | nil => intro i; rfl
  | cons x xs ih =>
    intro i
    rw [List.findIdx?_cons, if_neg (by rw [h x (List.mem_cons_self _ _)]; simp)]
    exact ih (fun y hy => h y (List.mem_cons_of_mem _ hy)) (i + 1)

theorem xo_find_cell_none (cells : List Cell) (address : String)
    (h : ∀ cell ∈ cells, dictGet cell.attrib "r" ≠ some address) :
    find_cell cells address = none := by
  unfold find_cell findCellIdx
  rw [xo_findIdx?_none _ cells (fun cell hc => by
    rw [decide_eq_false (h cell hc)]) 0]
  rfl

/-- C4 counterexample: with cell `B2` holding inline string `"Old"`, the
change `{sourceAddress := "b2", beforeName := "Old", afterName := "New"}` is
not applied — the lowercase address fails to locate `B2`, is validated
against the empty current value and yields a mismatch issue — while the same
change with `sourceAddress := "B2"` is applied; the two addresses do not
behave identically. -/
theorem address_case_counterexample :
    (applyChange [] [⟨[("r", "2")], [⟨[("r", "B2"), ("t", "inlineStr")], none,
        .cons (XNode.node "is" [] none (.cons (XNode.node "t" [] (some "Old") .nil) .nil)) .nil⟩]⟩]
      ⟨"S", "b2", "Old", "New", 0, none, some "column"⟩).applied = false ∧
    (applyChange [] [⟨[("r", "2")], [⟨[("r", "B2"), ("t", "inlineStr")], none,
        .cons (XNode.node "is" [] none (.cons (XNode.node "t" [] (some "Old") .nil) .nil)) .nil⟩]⟩]
      ⟨"S", "B2", "Old", "New", 0, none, some "column"⟩).applied = true ∧
    (applyChange [] [⟨[("r", "2")], [⟨[("r", "B2"), ("t", "inlineStr")], none,
        .cons (XNode.node "is" [] none (.cons (XNode.node "t" [] (some "Old") .nil) .nil)) .nil⟩]⟩]
      ⟨"S", "b2", "Old", "New", 0, none, some "column"⟩).issue =
      some (mkIssue ⟨"S", "b2", "Old", "New", 0, none, some "column"⟩ "b2"
        (mismatchReason "Old" "")) :=
  ⟨rfl, rfl, rfl⟩

/-- C4 amended: address parsing is case-insensitive and normalises column
letters to uppercase — an address and its upper-cased form parse to the same
result — but cell lookup matches the stripped address string exactly as
given, so when no cell's `r` attribute equals that exact string (in
particular when it differs only in letter case from an existing cell's
address) no existing cell is located and the change is validated against the
empty current value. -/
theorem parse_case_insensitive_lookup_exact (a : String) (cells : List Cell) (address : String)
    (hnm : ∀ cell ∈ cells, dictGet cell.attrib "r" ≠ some address) :
    parse_cell_ref a = parse_cell_ref (String.mk (a.toList.map Char.toUpper)) ∧
    find_cell cells address = none :=
  ⟨xo_parse_upper a, xo_find_cell_none cells address hnm⟩

/-- Witness for the amended C4 at address `"b2"` against a cell at `"B2"`. -/
theorem parse_case_insensitive_lookup_exact_witness :
    (∀ cell ∈ [(⟨[("r", "B2")], none, .nil⟩ : Cell)], dictGet cell.attrib "r" ≠ some "b2") ∧
    parse_cell_ref "b2" = parse_cell_ref (String.mk ("b2".toList.map Char.toUpper)) ∧
    find_cell [(⟨[("r", "B2")], none, .nil⟩ : Cell)] "b2" = none := by
  have h := parse_case_insensitive_lookup_exact "b2" [(⟨[("r", "B2")], none, .nil⟩ : Cell)] "b2"
    (by decide)
  exact ⟨by decide, h.1, h.2⟩

/-! ## Archive fidelity and atomicity (C5, C6) -/

theorem xo_process_repl (archive : List (String × List Row)) (shared : List String)
    (grouped : List (String × List Change)) :
    ∀ acc : RunResult,
      (grouped.foldl (processStep archive shared) acc).replacements.map Prod.fst =
        acc.replacements.map Prod.fst ++
          (grouped.filter (fun pc => (assocGet archive pc.1).isSome)).map Prod.fst := by
  induction grouped with
  | nil => intro acc; simp
  | cons pc rest ih =>
    intro acc
    rw [List.foldl_cons, ih (processStep archive shared acc pc)]
    unfold processStep
    cases h : assocGet archive pc.1 with
    | none => simp [List.filter_cons, h]
    | some doc => simp [List.filter_cons, h]

/-- C5: the written archive replaces exactly the data of the entries named
in the replacement map, copying every metadata field; every entry outside
the map is byte-identical to the original; and the replacement map's keys
are exactly the worksheet paths that received an attempted patch: the
grouped paths present in the archive. -/
theorem copy_replaces_exactly_patched :
    (∀ (entries : List ZipEntry) (repl : List (String × List Nat)),
      copy_zip_with_replacements entries repl = entries.map (fun e =>
        match assocGet repl e.filename with
        | none => e
        | some d => { e with data := d })) ∧
    (∀ (archive : List (String × List Row)) (sheetMap : List (String × String))
        (shared : List String) (changes : List Change) (p : String),
      p ∈ (processChanges archive sheetMap shared changes).replacements.map Prod.fst ↔
        (p ∈ (groupChanges sheetMap changes).1.map Prod.fst ∧
          (assocGet archive p).isSome = true)) := by
  constructor
  · intro entries repl
    unfold copy_zip_with_replacements
    apply List.map_congr_left
    intro e _
    unfold replaceEntry
    cases assocGet repl e.filename with
    | none => rfl
    | some d => rfl
  · intro archive sheetMap shared changes p
    unfold processChanges
    simp only []
    rw [xo_process_repl archive shared (groupChanges sheetMap changes).1
      { replacements := [], applied := 0, issues := (groupChanges sheetMap changes).2 }]
    simp only [List.map_nil, List.nil_append]
    constructor
    · intro hp
      rw [List.mem_map] at hp
      obtain ⟨pc, hpc, rfl⟩ := hp
      rw [List.mem_filter] at hpc
      exact ⟨List.mem_map_of_mem Prod.fst hpc.1, hpc.2⟩
    · rintro ⟨hp1, hp2⟩
      rw [List.mem_map] at hp1
      obtain ⟨pc, hpc, rfl⟩ := hp1
      apply List.mem_map_of_mem
      rw [List.mem_filter]
      exact ⟨hpc, hp2⟩

theorem xo_copyLoop_ok (repl : List (String × List Nat)) :
    ∀ (entries : List ZipEntry) (acc : List ZipEntry),
      copyEntriesLoop entries repl none acc = .ok (acc ++ entries.map (replaceEntry repl)) := by
  intro entries
  induction entries with
  | nil => intro acc; simp [copyEntriesLoop]
  | cons e rest ih =>
    intro acc
    unfold copyEntriesLoop
    rw [ih (acc ++ [replaceEntry repl e])]
    simp

theorem xo_copyLoop_fail (repl : List (String × List Nat)) :
    ∀ (entries : List ZipEntry) (k : Nat) (acc : List ZipEntry), k < entries.length →
      copyEntriesLoop entries repl (some k) acc =
        .error (acc ++ (entries.take k).map (replaceEntry repl)) := by
  intro entries
  induction entries with
  | nil => intro k acc hk; simp at hk
  | cons e rest ih =>
    intro k acc hk
    cases k with
    | zero => simp [copyEntriesLoop]
    | succ k =>
      unfold copyEntriesLoop
      simp only []
      rw [ih k (acc ++ [replaceEntry repl e]) (by simpa using hk)]
      simp [List.take_succ_cons]

/-- C6: the copy routine is atomic: when the copy of some entry fails, the
workbook file is left byte-for-byte unchanged and the temporary file is
discarded; when no failure occurs, the fully written archive is swapped into
place and the temporary file is gone. -/
theorem copy_zip_atomic (fs : ZipFs) (repl : List (String × List Nat)) (k : Nat)
    (hk : k < fs.workbook.length) :
    copy_zip_run fs repl (some k) = ({ workbook := fs.workbook, temp := none }, false) ∧
    copy_zip_run fs repl none =
      ({ workbook := copy_zip_with_replacements fs.workbook repl, temp := none }, true) := by
  constructor
  · unfold copy_zip_run
    rw [xo_copyLoop_fail repl fs.workbook k [] hk]
  · unfold copy_zip_run
    rw [xo_copyLoop_ok repl fs.workbook []]
    rfl

/-- Witness for C6 on a one-entry archive failing at entry 0. -/
theorem copy_zip_atomic_witness :
    0 < ([⟨"xl/worksheets/sheet1.xml", 0, 0, [], 0, 0, 0, 0, 0, 0, [], [1, 2]⟩] : List ZipEntry).length ∧
    copy_zip_run ⟨[⟨"xl/worksheets/sheet1.xml", 0, 0, [], 0, 0, 0, 0, 0, 0, [], [1, 2]⟩], none⟩
        [("xl/worksheets/sheet1.xml", [9])] (some 0) =
      ({ workbook := [⟨"xl/worksheets/sheet1.xml", 0, 0, [], 0, 0, 0, 0, 0, 0, [], [1, 2]⟩],
         temp := none }, false) ∧
    copy_zip_run ⟨[⟨"xl/worksheets/sheet1.xml", 0, 0, [], 0, 0, 0, 0, 0, 0, [], [1, 2]⟩], none⟩
        [("xl/worksheets/sheet1.xml", [9])] none =
      ({ workbook := copy_zip_with_replacements
           [⟨"xl/worksheets/sheet1.xml", 0, 0, [], 0, 0, 0, 0, 0, 0, [], [1, 2]⟩]
           [("xl/worksheets/sheet1.xml", [9])],
         temp := none }, true) := by
  have h := copy_zip_atomic ⟨[⟨"xl/worksheets/sheet1.xml", 0, 0, [], 0, 0, 0, 0, 0, 0, [], [1, 2]⟩], none⟩
    [("xl/worksheets/sheet1.xml", [9])] 0 (by decide)
  exact ⟨by decide, h.1, h.2⟩
